import Mathlib

/-!
Verification of the thread-safe chained hashmap in `src/ts_hashmap.c`.

The C program is shallowly embedded: a bucket chain (`ts_entry_t*` linked
list) becomes a `List` of entries, the map struct becomes a Lean structure,
and each C function becomes a Lean function whose branches mirror the
source's control flow.  C `int` is modelled as `Int`; the `%` operator on
`int` is truncated remainder, i.e. `Int.tmod`.  Lock acquire/release calls
are modelled separately as event traces emitted along each control path.
-/

namespace TsHashmap

/-- The value `INT_MAX` from `<limits.h>` for a 32-bit `int`. -/
def INT_MAX : Int := 2147483647

/-- Models `ts_entry_t`: an entry holds a key and a value; the `next`
pointer is represented by list structure. -/
structure ts_entry_t where
  key : Int
  value : Int
  deriving DecidableEq, Repr

/-- A bucket's chain: the linked list hanging off one table slot. -/
abbrev Chain := List ts_entry_t

/-- Models `ts_hashmap_t`: the table of bucket chains plus the three
scalar fields.  The lock array has no data content and is modelled by the
event traces below. -/
structure ts_hashmap_t where
  table : List Chain
  capacity : Int
  size : Int
  numOps : Int
  deriving DecidableEq, Repr

/-- Models `initmap` (lines 14-30): `calloc` yields `capacity` empty
chains, size and numOps start at zero. -/
def initmap (capacity : Int) : ts_hashmap_t :=
  { table := List.replicate capacity.toNat []
    capacity := capacity
    size := 0
    numOps := 0 }

/-- The index computation `key % map->capacity` (lines 41, 70, 147); C's
`%` on `int` is truncated remainder. -/
def bucketIndex (key capacity : Int) : Int :=
  Int.tmod key capacity

/-- The bucket index as a natural number, used to address `table`. -/
def bucketIdxNat (m : ts_hashmap_t) (key : Int) : Nat :=
  (bucketIndex key m.capacity).toNat

/-- The chain `map->table[index]` read by every operation. -/
def bucket (m : ts_hashmap_t) (key : Int) : Chain :=
  m.table.getD (bucketIdxNat m key) []

/-- The traversal loop of `get` (lines 45-54): first entry whose key
equals the argument wins, otherwise `INT_MAX`. -/
def getChain (key : Int) : Chain → Int
  | [] => INT_MAX
  | e :: rest => if e.key = key then e.value else getChain key rest

/-- Models `get` (lines 38-58): returns the map after the call (only
`numOps` changes) and the returned value. -/
def get (m : ts_hashmap_t) (key : Int) : ts_hashmap_t × Int :=
  ({ m with numOps := m.numOps + 1 }, getChain key (bucket m key))

/-- The four return paths of `put`: empty-bucket head insertion (line 95),
in-place replacement (line 113), tail append (line 125), and the residual
`return -1` fall-through (line 134). -/
inductive putRes where
  | emptyHead
  | replaced (old : Int)
  | appended
  | fallthrough
  deriving DecidableEq, Repr

/-- The value returned by `put` on each path. -/
def putRes.ret : putRes → Int
  | .emptyHead => INT_MAX
  | .replaced old => old
  | .appended => INT_MAX
  | .fallthrough => -1

/-- The change `put` makes to `map->size` on each path. -/
def putRes.sizeDelta : putRes → Int
  | .emptyHead => 1
  | .replaced _ => 0
  | .appended => 1
  | .fallthrough => 0

/-- The traversal loop of `put` (lines 99-129): replacement is checked
before the at-tail test, and the `[]` case is the loop exiting without
returning, i.e. the residual `return -1` path. -/
def putChain (key value : Int) : Chain → Chain × putRes
  | [] => ([], .fallthrough)
  | e :: rest =>
    if e.key = key then ({ key := e.key, value := value } :: rest, .replaced e.value)
    else if rest.isEmpty then (e :: [{ key := key, value := value }], .appended)
    else
      (e :: (putChain key value rest).1, (putChain key value rest).2)

/-- Which return path a call to `put` takes (lines 86-134). -/
def putOutcome (m : ts_hashmap_t) (key value : Int) : putRes :=
  if (bucket m key).isEmpty then .emptyHead
  else (putChain key value (bucket m key)).2

/-- Models `put` (lines 67-135): empty-bucket check first, then the
traversal loop; `numOps` is incremented on entry. -/
def put (m : ts_hashmap_t) (key value : Int) : ts_hashmap_t × Int :=
  if (bucket m key).isEmpty then
    ({ m with table := m.table.set (bucketIdxNat m key) [{ key := key, value := value }]
              size := m.size + 1
              numOps := m.numOps + 1 }, INT_MAX)
  else
    ({ m with table := m.table.set (bucketIdxNat m key) (putChain key value (bucket m key)).1
              size := m.size + (putChain key value (bucket m key)).2.sizeDelta
              numOps := m.numOps + 1 }, (putChain key value (bucket m key)).2.ret)

/-- The trailing-pointer loop of `del` (lines 169-191): unlinks the first
entry whose key matches and reports its value; `none` is the
traversal-exhausted case (line 180). -/
def delChain (key : Int) : Chain → Chain × Option Int
  | [] => ([], none)
  | e :: rest =>
    if e.key = key then (rest, some e.value)
    else
      (e :: (delChain key rest).1, (delChain key rest).2)

/-- Models `del` (lines 143-197): empty-bucket check, then head-match
check, then the trailing-pointer traversal. -/
def del (m : ts_hashmap_t) (key : Int) : ts_hashmap_t × Int :=
  match bucket m key with
  | [] => ({ m with numOps := m.numOps + 1 }, INT_MAX)
  | e :: rest =>
    if e.key = key then
      ({ m with table := m.table.set (bucketIdxNat m key) rest
                size := m.size - 1
                numOps := m.numOps + 1 }, e.value)
    else
      match (delChain key rest).2 with
      | some v =>
        ({ m with table := m.table.set (bucketIdxNat m key) (e :: (delChain key rest).1)
                  size := m.size - 1
                  numOps := m.numOps + 1 }, v)
      | none => ({ m with numOps := m.numOps + 1 }, INT_MAX)

/-- Whether some entry of the chain has the given key. -/
def containsKey (key : Int) : Chain → Bool
  | [] => false
  | e :: rest => e.key == key || containsKey key rest

/-- Replacing, in place, the value of the first entry whose key matches;
used to state what the replacement branch of `put` does to the chain. -/
def replaceFirst (key value : Int) : Chain → Chain
  | [] => []
  | e :: rest =>
    if e.key = key then { key := e.key, value := value } :: rest
    else e :: replaceFirst key value rest

/-- Unlinking the first entry whose key matches; used to state what the
deletion branches of `del` do to the chain. -/
def removeFirst (key : Int) : Chain → Chain
  | [] => []
  | e :: rest => if e.key = key then rest else e :: removeFirst key rest

/-- The number of entries reachable across all bucket chains. -/
def totalEntries (m : ts_hashmap_t) : Nat :=
  m.table.flatten.length

/-- All keys stored in the map, bucket by bucket. -/
def allKeys (m : ts_hashmap_t) : List Int :=
  m.table.flatten.map ts_entry_t.key

/-- The number of entries in the whole map whose key is `k`. -/
def keyCount (m : ts_hashmap_t) (k : Int) : Nat :=
  List.countP (fun e => e.key == k) m.table.flatten

/-- The number of distinct keys currently present. -/
def numDistinctKeys (m : ts_hashmap_t) : Nat :=
  (allKeys m).dedup.length

/-- One public operation on the map. -/
inductive Op where
  | put (key value : Int)
  | get (key : Int)
  | del (key : Int)
  deriving DecidableEq, Repr

/-- The key an operation addresses. -/
def Op.opKey : Op → Int
  | .put k _ => k
  | .get k => k
  | .del k => k

/-- Running one operation for its state change. -/
def runOp (m : ts_hashmap_t) : Op → ts_hashmap_t
  | .put k v => (put m k v).1
  | .get k => (get m k).1
  | .del k => (del m k).1

/-- Running a sequence of operations. -/
def runOps (m : ts_hashmap_t) (ops : List Op) : ts_hashmap_t :=
  ops.foldl runOp m

/-- A map state reachable from `initmap` by a sequence of operations with
positive capacity and non-negative keys (the C code indexes the table out
of bounds otherwise). -/
def Reachable (m : ts_hashmap_t) : Prop :=
  ∃ cap : Int, ∃ ops : List Op,
    0 < cap ∧ (∀ op ∈ ops, 0 ≤ op.opKey) ∧ m = runOps (initmap cap) ops

/-- Structural well-formedness: positive capacity and a table of exactly
`capacity` slots, as `initmap` builds it. -/
def WF (m : ts_hashmap_t) : Prop :=
  0 < m.capacity ∧ m.table.length = m.capacity.toNat

instance (m : ts_hashmap_t) : Decidable (WF m) :=
  inferInstanceAs (Decidable (_ ∧ _))

/-- Every entry sits in the bucket its key hashes to and has a
non-negative key. -/
def coherent (m : ts_hashmap_t) : Prop :=
  ∀ i : Nat, ∀ h : i < m.table.length, ∀ e ∈ m.table[i],
    0 ≤ e.key ∧ (bucketIndex e.key m.capacity).toNat = i

/-- The full state invariant maintained by the operations. -/
def Inv (m : ts_hashmap_t) : Prop :=
  WF m ∧ m.size = (totalEntries m : Int) ∧ coherent m ∧ ∀ k : Int, keyCount m k ≤ 1

/-- A lock acquire or release on bucket `i`, modelling
`pthread_mutex_lock`/`pthread_mutex_unlock` on `map->lock[i]`. -/
inductive LockEvent where
  | acquire (i : Nat)
  | release (i : Nat)
  deriving DecidableEq, Repr

/-- Lock events emitted by the loop of `get`: the early-return unlock
(line 50) or the not-found unlock (line 56). -/
def getLoopEvents (key : Int) (index : Nat) : Chain → List LockEvent
  | [] => [.release index]
  | e :: rest => if e.key = key then [.release index] else getLoopEvents key index rest

/-- Lock events of a whole `get` call (lines 42-56). -/
def getEvents (m : ts_hashmap_t) (key : Int) : List LockEvent :=
  .acquire (bucketIdxNat m key) ::
    getLoopEvents key (bucketIdxNat m key) (bucket m key)

/-- Lock events emitted by the loop of `put`: the replacement unlock
(line 111), the tail-append unlock (line 123), or the fall-through unlock
(line 132). -/
def putLoopEvents (key : Int) (index : Nat) : Chain → List LockEvent
  | [] => [.release index]
  | e :: rest =>
    if e.key = key then [.release index]
    else if rest.isEmpty then [.release index]
    else putLoopEvents key index rest

/-- Lock events of a whole `put` call (lines 72-132): the empty-bucket
unlock is at line 93. -/
def putEvents (m : ts_hashmap_t) (key : Int) (_value : Int) : List LockEvent :=
  .acquire (bucketIdxNat m key) ::
    (if (bucket m key).isEmpty then [.release (bucketIdxNat m key)]
     else putLoopEvents key (bucketIdxNat m key) (bucket m key))

/-- Lock events of a whole `del` call (lines 148-193): unlocks at lines
154, 164, 179 and 193, one per return path. -/
def delEvents (m : ts_hashmap_t) (key : Int) : List LockEvent :=
  .acquire (bucketIdxNat m key) ::
    (match bucket m key with
     | [] => [.release (bucketIdxNat m key)]
     | e :: rest =>
       if e.key = key then [.release (bucketIdxNat m key)]
       else
         match (delChain key rest).2 with
         | some _ => [.release (bucketIdxNat m key)]
         | none => [.release (bucketIdxNat m key)])

/-- Whether an operation leaves the given key's binding alone: any `get`,
or a `put`/`del` addressed to a different key. -/
def preservesKey (k : Int) : Op → Bool
  | .put k2 _ => k2 != k
  | .del k2 => k2 != k
  | .get _ => true

/-- Checks a lock trace against the single-lock discipline: at most one
lock held at any time, a release only of the held lock, and no lock held
at return. -/
def singleLockProtocol : Option Nat → List LockEvent → Bool
  | none, [] => true
  | some _, [] => false
  | none, .acquire i :: rest => singleLockProtocol (some i) rest
  | none, .release _ :: _ => false
  | some _, .acquire _ :: _ => false
  | some j, .release i :: rest => i == j && singleLockProtocol none rest

/-- The specified three-way case analysis of one `put` call: empty-bucket
head insertion, in-place replacement (chain keys unchanged, size
unchanged, prior value returned), or tail append — and the residual
`return -1` path is never taken. -/
def putTrichotomyAt (m : ts_hashmap_t) (key value : Int) : Prop :=
  (bucket m key = [] →
      putOutcome m key value = .emptyHead ∧
      (put m key value).1.table =
        m.table.set (bucketIdxNat m key) [{ key := key, value := value }] ∧
      (put m key value).1.size = m.size + 1 ∧
      (put m key value).2 = INT_MAX) ∧
  (containsKey key (bucket m key) = true →
      putOutcome m key value = .replaced (getChain key (bucket m key)) ∧
      (put m key value).1.table =
        m.table.set (bucketIdxNat m key) (replaceFirst key value (bucket m key)) ∧
      (replaceFirst key value (bucket m key)).map ts_entry_t.key =
        (bucket m key).map ts_entry_t.key ∧
      (put m key value).1.size = m.size ∧
      (put m key value).2 = getChain key (bucket m key)) ∧
  (bucket m key ≠ [] → containsKey key (bucket m key) = false →
      putOutcome m key value = .appended ∧
      (put m key value).1.table =
        m.table.set (bucketIdxNat m key)
          (bucket m key ++ [{ key := key, value := value }]) ∧
      (put m key value).1.size = m.size + 1 ∧
      (put m key value).2 = INT_MAX) ∧
  putOutcome m key value ≠ .fallthrough

/-- The specified case analysis of one `del` call: no match leaves chain
and size alone and returns `INT_MAX`; a head match promotes the successor;
a mid-chain or tail match relinks predecessor to successor. -/
def delCasesAt (m : ts_hashmap_t) (key : Int) : Prop :=
  (containsKey key (bucket m key) = false →
      (del m key).2 = INT_MAX ∧ (del m key).1.table = m.table ∧
      (del m key).1.size = m.size) ∧
  (∀ e rest, bucket m key = e :: rest → e.key = key →
      (del m key).1.table = m.table.set (bucketIdxNat m key) rest ∧
      (del m key).1.size = m.size - 1 ∧ (del m key).2 = e.value) ∧
  (∀ e rest, bucket m key = e :: rest → e.key ≠ key →
      containsKey key rest = true →
      (del m key).1.table =
        m.table.set (bucketIdxNat m key) (e :: removeFirst key rest) ∧
      (del m key).1.size = m.size - 1 ∧ (del m key).2 = getChain key rest)

/-- The specified behavior of one `get` call: the stored value of the
matching entry of the target bucket when one exists, otherwise the
`INT_MAX` sentinel, which is the largest 32-bit `int`. -/
def getSpecAt (m : ts_hashmap_t) (key : Int) : Prop :=
  (∀ e ∈ bucket m key, e.key = key → (get m key).2 = e.value) ∧
  (containsKey key (bucket m key) = false → (get m key).2 = INT_MAX) ∧
  INT_MAX = 2 ^ 31 - 1

/-- The specified size deltas of the mutating operations at one call
site: `put` on a new key adds one, `put` on a present key adds nothing,
`del` of a present key removes one, `del` of an absent key removes
nothing. -/
def sizeDeltasAt (m : ts_hashmap_t) (key value : Int) : Prop :=
  (containsKey key (bucket m key) = false → (put m key value).1.size = m.size + 1) ∧
  (containsKey key (bucket m key) = true → (put m key value).1.size = m.size) ∧
  (containsKey key (bucket m key) = true → (del m key).1.size = m.size - 1) ∧
  (containsKey key (bucket m key) = false → (del m key).1.size = m.size)

/-- The specified single-thread algebraic laws at one call site: a stored
value is read back until the key is overwritten or deleted, a deleted key
reads as `INT_MAX`, and `put` on a present key returns the current
value. -/
def algebraAt (m : ts_hashmap_t) (key v : Int) : Prop :=
  (∀ ops : List Op, (∀ op ∈ ops, 0 ≤ op.opKey ∧ preservesKey key op = true) →
      (get (runOps (put m key v).1 ops) key).2 = v) ∧
  (get (del m key).1 key).2 = INT_MAX ∧
  (∀ v2 : Int, containsKey key (bucket m key) = true →
      (put m key v2).2 = (get m key).2)

/-- The sentinel-as-value behavior at one call site: `put` stores
`INT_MAX` like any other value, `get` then returns `INT_MAX`, and that
result is indistinguishable from the key being absent. -/
def sentinelAt (m : ts_hashmap_t) (key : Int) : Prop :=
  containsKey key (bucket (put m key INT_MAX).1 key) = true ∧
  (get (put m key INT_MAX).1 key).2 = INT_MAX ∧
  (∀ m2 : ts_hashmap_t, ∀ k2 : Int,
      containsKey k2 (bucket m2 k2) = false → (get m2 k2).2 = INT_MAX)

/-! ### Chain-level lemmas -/

theorem containsKey_eq_false_iff (key : Int) (c : Chain) :
    containsKey key c = false ↔ ∀ e ∈ c, e.key ≠ key := by
  induction c with
  | nil => simp [containsKey]
  | cons e rest ih => simp [containsKey, ih]

theorem containsKey_eq_true_iff (key : Int) (c : Chain) :
    containsKey key c = true ↔ ∃ e ∈ c, e.key = key := by
  induction c with
  | nil => simp [containsKey]
  | cons e rest ih => simp [containsKey, ih]

theorem getChain_of_not_contains {key : Int} {c : Chain}
    (h : containsKey key c = false) : getChain key c = INT_MAX := by
  induction c with
  | nil => rfl
  | cons e rest ih =>
    simp only [containsKey, Bool.or_eq_false_iff, beq_eq_false_iff_ne, ne_eq] at h
    simp [getChain, h.1, ih h.2]

theorem putChain_of_contains {key : Int} (value : Int) {c : Chain}
    (h : containsKey key c = true) :
    putChain key value c = (replaceFirst key value c, .replaced (getChain key c)) := by
  induction c with
  | nil => simp [containsKey] at h
  | cons e rest ih =>
    by_cases hk : e.key = key
    · simp [putChain, replaceFirst, getChain, hk]
    · have hr : containsKey key rest = true := by
        simpa [containsKey, hk] using h
      have hne : rest.isEmpty = false := by
        cases rest with
        | nil => simp [containsKey] at hr
        | cons f rest2 => rfl
      simp [putChain, replaceFirst, getChain, hk, hne, ih hr]

theorem putChain_of_not_contains {key : Int} (value : Int) {c : Chain}
    (hne : c ≠ []) (h : containsKey key c = false) :
    putChain key value c = (c ++ [{ key := key, value := value }], .appended) := by
  induction c with
  | nil => exact absurd rfl hne
  | cons e rest ih =>
    simp only [containsKey, Bool.or_eq_false_iff, beq_eq_false_iff_ne, ne_eq] at h
    cases rest with
    | nil => simp [putChain, h.1]
    | cons f rest2 =>
      have hih := ih (by simp) h.2
      rw [putChain, if_neg h.1, if_neg (by simp : ¬ (f :: rest2).isEmpty = true), hih]
      rfl

theorem keys_replaceFirst (key value : Int) (c : Chain) :
    (replaceFirst key value c).map ts_entry_t.key = c.map ts_entry_t.key := by
  induction c with
  | nil => rfl
  | cons e rest ih =>
    by_cases hk : e.key = key
    · simp [replaceFirst, hk]
    · simp [replaceFirst, hk, ih]

theorem length_replaceFirst (key value : Int) (c : Chain) :
    (replaceFirst key value c).length = c.length := by
  simpa using congrArg List.length (keys_replaceFirst key value c)

theorem countP_replaceFirst (p : Int → Bool) (key value : Int) (c : Chain) :
    List.countP (fun e => p e.key) (replaceFirst key value c) =
      List.countP (fun e => p e.key) c := by
  induction c with
  | nil => rfl
  | cons e rest ih =>
    by_cases hk : e.key = key
    · simp [replaceFirst, hk, List.countP_cons]
    · simp [replaceFirst, hk, List.countP_cons, ih]

theorem mem_replaceFirst {key value : Int} {c : Chain} {e : ts_entry_t}
    (h : e ∈ replaceFirst key value c) : ∃ f ∈ c, e.key = f.key := by
  induction c with
  | nil => simp [replaceFirst] at h
  | cons f rest ih =>
    by_cases hk : f.key = key
    · rw [replaceFirst, if_pos hk] at h
      rcases List.mem_cons.mp h with h1 | h1
      · exact ⟨f, List.mem_cons_self f rest, by rw [h1]⟩
      · exact ⟨e, List.mem_cons_of_mem f h1, rfl⟩
    · rw [replaceFirst, if_neg hk] at h
      rcases List.mem_cons.mp h with h1 | h1
      · exact ⟨f, List.mem_cons_self f rest, by rw [h1]⟩
      · rcases ih h1 with ⟨g, hg, hge⟩
        exact ⟨g, List.mem_cons_of_mem f hg, hge⟩

theorem getChain_replaceFirst_self {key : Int} (value : Int) {c : Chain}
    (h : containsKey key c = true) :
    getChain key (replaceFirst key value c) = value := by
  induction c with
  | nil => simp [containsKey] at h
  | cons e rest ih =>
    by_cases hk : e.key = key
    · simp [replaceFirst, getChain, hk]
    · have hr : containsKey key rest = true := by
        simpa [containsKey, hk] using h
      simp [replaceFirst, getChain, hk, ih hr]

theorem getChain_replaceFirst_ne {k key : Int} (value : Int) (c : Chain)
    (hne : k ≠ key) :
    getChain k (replaceFirst key value c) = getChain k c := by
  have hne2 : ¬ key = k := fun h => hne h.symm
  induction c with
  | nil => rfl
  | cons e rest ih =>
    by_cases hk : e.key = key
    · simp [replaceFirst, getChain, hk, hne2]
    · by_cases hk2 : e.key = k
      · simp [replaceFirst, getChain, hk, hk2, hne]
      · simp [replaceFirst, getChain, hk, hk2, ih]

theorem containsKey_replaceFirst (k key value : Int) (c : Chain) :
    containsKey k (replaceFirst key value c) = containsKey k c := by
  induction c with
  | nil => rfl
  | cons e rest ih =>
    by_cases hk : e.key = key
    · simp [replaceFirst, containsKey, hk]
    · simp [replaceFirst, containsKey, hk, ih]

theorem getChain_append_self {key : Int} (value : Int) {c : Chain}
    (h : containsKey key c = false) :
    getChain key (c ++ [{ key := key, value := value }]) = value := by
  induction c with
  | nil => simp [getChain]
  | cons e rest ih =>
    simp only [containsKey, Bool.or_eq_false_iff, beq_eq_false_iff_ne, ne_eq] at h
    simp [getChain, h.1, ih h.2]

theorem getChain_append_ne {k : Int} {e2 : ts_entry_t} (c : Chain)
    (hne : e2.key ≠ k) :
    getChain k (c ++ [e2]) = getChain k c := by
  induction c with
  | nil => simp [getChain, hne]
  | cons e rest ih =>
    by_cases hk : e.key = k
    · simp [getChain, hk]
    · simp [getChain, hk, ih]

theorem containsKey_append (k : Int) (c d : Chain) :
    containsKey k (c ++ d) = (containsKey k c || containsKey k d) := by
  induction c with
  | nil => simp [containsKey]
  | cons e rest ih => simp [containsKey, ih, Bool.or_assoc]

theorem delChain_of_contains {key : Int} {c : Chain}
    (h : containsKey key c = true) :
    delChain key c = (removeFirst key c, some (getChain key c)) := by
  induction c with
  | nil => simp [containsKey] at h
  | cons e rest ih =>
    by_cases hk : e.key = key
    · simp [delChain, removeFirst, getChain, hk]
    · have hr : containsKey key rest = true := by
        simpa [containsKey, hk] using h
      simp [delChain, removeFirst, getChain, hk, ih hr]

theorem delChain_of_not_contains {key : Int} {c : Chain}
    (h : containsKey key c = false) :
    delChain key c = (c, none) := by
  induction c with
  | nil => rfl
  | cons e rest ih =>
    simp only [containsKey, Bool.or_eq_false_iff, beq_eq_false_iff_ne, ne_eq] at h
    simp [delChain, h.1, ih h.2]

theorem removeFirst_sublist (key : Int) (c : Chain) :
    (removeFirst key c).Sublist c := by
  induction c with
  | nil => simp [removeFirst]
  | cons e rest ih =>
    by_cases hk : e.key = key
    · rw [removeFirst, if_pos hk]
      exact List.sublist_cons_self e rest
    · rw [removeFirst, if_neg hk]
      exact ih.cons₂ e

theorem length_removeFirst_of_contains {key : Int} {c : Chain}
    (h : containsKey key c = true) :
    (removeFirst key c).length + 1 = c.length := by
  induction c with
  | nil => simp [containsKey] at h
  | cons e rest ih =>
    by_cases hk : e.key = key
    · simp [removeFirst, hk]
    · have hr : containsKey key rest = true := by
        simpa [containsKey, hk] using h
      simp [removeFirst, hk, ih hr]

theorem getChain_removeFirst_ne {k key : Int} (c : Chain) (hne : k ≠ key) :
    getChain k (removeFirst key c) = getChain k c := by
  have hne2 : ¬ key = k := fun h => hne h.symm
  induction c with
  | nil => rfl
  | cons e rest ih =>
    by_cases hk : e.key = key
    · simp [removeFirst, getChain, hk, hne2]
    · by_cases hk2 : e.key = k
      · simp [removeFirst, getChain, hk, hk2, hne]
      · simp [removeFirst, getChain, hk, hk2, ih]

theorem countP_removeFirst_self {key : Int} {c : Chain}
    (h : containsKey key c = true) :
    List.countP (fun e => e.key == key) (removeFirst key c) + 1 =
      List.countP (fun e => e.key == key) c := by
  induction c with
  | nil => simp [containsKey] at h
  | cons e rest ih =>
    by_cases hk : e.key = key
    · simp [removeFirst, hk, List.countP_cons]
    · have hr : containsKey key rest = true := by
        simpa [containsKey, hk] using h
      simp [removeFirst, hk, List.countP_cons, ih hr]

theorem countP_key_eq_zero_iff (k : Int) (c : Chain) :
    List.countP (fun e => e.key == k) c = 0 ↔ containsKey k c = false := by
  rw [List.countP_eq_zero, containsKey_eq_false_iff]
  simp

theorem getChain_eq_of_mem_of_count_le_one {k : Int} {c : Chain} {e : ts_entry_t}
    (hcnt : List.countP (fun f => f.key == k) c ≤ 1)
    (hmem : e ∈ c) (hek : e.key = k) : getChain k c = e.value := by
  induction c with
  | nil => simp at hmem
  | cons f rest ih =>
    rw [List.countP_cons] at hcnt
    by_cases hk : f.key = k
    · have hb : (f.key == k) = true := beq_iff_eq.mpr hk
      rw [hb, if_pos rfl] at hcnt
      have hz : List.countP (fun g => g.key == k) rest = 0 := by omega
      rcases List.mem_cons.mp hmem with h | h
      · simp [getChain, hk, h]
      · exfalso
        have hnc : containsKey k rest = false := (countP_key_eq_zero_iff k rest).mp hz
        rw [containsKey_eq_false_iff] at hnc
        exact hnc e h hek
    · rcases List.mem_cons.mp hmem with h | h
      · rw [← h] at hk; exact absurd hek hk
      · simp only [getChain, if_neg hk]
        exact ih (by omega) h

/-! ### Table-level lemmas -/

theorem bucketIdxNat_lt {m : ts_hashmap_t} {key : Int} (hwf : WF m) (hk : 0 ≤ key) :
    bucketIdxNat m key < m.table.length := by
  obtain ⟨hpos, hlen⟩ := hwf
  have h1 : 0 ≤ Int.tmod key m.capacity := Int.tmod_nonneg m.capacity hk
  have h2 : Int.tmod key m.capacity < m.capacity := Int.tmod_lt_of_pos key hpos
  unfold bucketIdxNat bucketIndex
  omega

theorem bucket_eq_getElem {m : ts_hashmap_t} {key : Int}
    (h : bucketIdxNat m key < m.table.length) :
    bucket m key = m.table[bucketIdxNat m key] := by
  unfold bucket
  rw [List.getD_eq_getElem?_getD, List.getElem?_eq_getElem h]
  rfl

theorem getD_set_self {α : Type} (l : List α) (i : Nat) (a d : α)
    (h : i < l.length) : (l.set i a).getD i d = a := by
  rw [List.getD_eq_getElem?_getD, List.getElem?_set_eq_of_lt a h]
  rfl

theorem getD_set_ne {α : Type} (l : List α) {i j : Nat} (a d : α) (h : i ≠ j) :
    (l.set i a).getD j d = l.getD j d := by
  rw [List.getD_eq_getElem?_getD, List.getElem?_set_ne h, ← List.getD_eq_getElem?_getD]

theorem countP_flatten_set (p : ts_entry_t → Bool) :
    ∀ (table : List Chain) (i : Nat) (c : Chain), ∀ h : i < table.length,
    List.countP p (table.set i c).flatten + List.countP p table[i] =
      List.countP p table.flatten + List.countP p c := by
  intro table
  induction table with
  | nil => intro i c h; simp at h
  | cons t ts ih =>
    intro i c h
    cases i with
    | zero =>
      simp only [List.set, List.flatten_cons, List.countP_append, List.getElem_cons_zero]
      omega
    | succ j =>
      have h2 : j < ts.length := by simpa using h
      have := ih j c h2
      simp only [List.set, List.flatten_cons, List.countP_append, List.getElem_cons_succ]
      omega

theorem length_flatten_set (table : List Chain) (i : Nat) (c : Chain)
    (h : i < table.length) :
    (table.set i c).flatten.length + table[i].length =
      table.flatten.length + c.length := by
  have := countP_flatten_set (fun _ => true) table i c h
  simpa [List.countP_true] using this

theorem bucket_set (m : ts_hashmap_t) (i : Nat) (c : Chain) (sz nops : Int)
    (k : Int) (hlt : i < m.table.length) :
    bucket { m with table := m.table.set i c, size := sz, numOps := nops } k =
      if bucketIdxNat m k = i then c else bucket m k := by
  by_cases h : bucketIdxNat m k = i
  · rw [if_pos h]
    show (m.table.set i c).getD (bucketIdxNat m k) [] = c
    rw [h]
    exact getD_set_self m.table i c [] hlt
  · rw [if_neg h]
    show (m.table.set i c).getD (bucketIdxNat m k) [] = m.table.getD (bucketIdxNat m k) []
    exact getD_set_ne m.table c [] (fun hh => h hh.symm)

theorem keyCount_eq_zero_of_not_in_bucket {m : ts_hashmap_t} {k : Int}
    (hco : coherent m)
    (h : containsKey k (bucket m k) = false) : keyCount m k = 0 := by
  unfold keyCount
  rw [List.countP_eq_zero]
  intro e he hp
  have hek : e.key = k := beq_iff_eq.mp hp
  rcases List.mem_flatten.mp he with ⟨chain, hchain, hec⟩
  rcases List.mem_iff_getElem.mp hchain with ⟨i, hi, hieq⟩
  have hcoh := hco i hi e (hieq ▸ hec)
  have hidx : i = bucketIdxNat m k := by
    rw [← hcoh.2, hek]; rfl
  subst hidx
  have hbk : bucket m k = chain := by
    rw [bucket_eq_getElem hi]; exact hieq
  rw [containsKey_eq_false_iff] at h
  exact h e (hbk ▸ hec) hek

theorem countP_bucket_le_keyCount {m : ts_hashmap_t} {k : Int}
    (hwf : WF m) (hk : 0 ≤ k) :
    List.countP (fun e => e.key == k) (bucket m k) ≤ keyCount m k := by
  have hlt := bucketIdxNat_lt hwf hk
  rw [bucket_eq_getElem hlt]
  exact List.Sublist.countP_le _ (List.sublist_flatten_of_mem (List.getElem_mem hlt))

/-! ### Shape lemmas for put and del -/

theorem put_of_empty (m : ts_hashmap_t) (key value : Int)
    (h : bucket m key = []) :
    put m key value =
      ({ m with table := m.table.set (bucketIdxNat m key) [{ key := key, value := value }]
                size := m.size + 1
                numOps := m.numOps + 1 }, INT_MAX) := by
  unfold put
  rw [h]
  rfl

theorem put_of_contains (m : ts_hashmap_t) {key : Int} (value : Int)
    (h : containsKey key (bucket m key) = true) :
    put m key value =
      ({ m with table := m.table.set (bucketIdxNat m key)
                  (replaceFirst key value (bucket m key))
                size := m.size
                numOps := m.numOps + 1 }, getChain key (bucket m key)) := by
  have hne : (bucket m key).isEmpty = false := by
    cases hb : bucket m key with
    | nil => rw [hb] at h; simp [containsKey] at h
    | cons e rest => rfl
  unfold put
  rw [hne, putChain_of_contains value h]
  simp [putRes.sizeDelta, putRes.ret]

theorem put_of_append (m : ts_hashmap_t) {key : Int} (value : Int)
    (hne : bucket m key ≠ []) (h : containsKey key (bucket m key) = false) :
    put m key value =
      ({ m with table := m.table.set (bucketIdxNat m key)
                  (bucket m key ++ [{ key := key, value := value }])
                size := m.size + 1
                numOps := m.numOps + 1 }, INT_MAX) := by
  have hne2 : (bucket m key).isEmpty = false := by
    cases hb : bucket m key with
    | nil => exact absurd hb hne
    | cons e rest => rfl
  unfold put
  rw [hne2, putChain_of_not_contains value hne h]
  rfl

theorem del_of_empty (m : ts_hashmap_t) (key : Int) (h : bucket m key = []) :
    del m key = ({ m with numOps := m.numOps + 1 }, INT_MAX) := by
  unfold del
  rw [h]

theorem del_of_head (m : ts_hashmap_t) {key : Int} {e : ts_entry_t} {rest : Chain}
    (h : bucket m key = e :: rest) (hk : e.key = key) :
    del m key =
      ({ m with table := m.table.set (bucketIdxNat m key) rest
                size := m.size - 1
                numOps := m.numOps + 1 }, e.value) := by
  unfold del
  rw [h]
  simp [hk]

theorem del_of_mid (m : ts_hashmap_t) {key : Int} {e : ts_entry_t} {rest : Chain}
    (h : bucket m key = e :: rest) (hk : ¬ e.key = key)
    (hc : containsKey key rest = true) :
    del m key =
      ({ m with table := m.table.set (bucketIdxNat m key) (e :: removeFirst key rest)
                size := m.size - 1
                numOps := m.numOps + 1 }, getChain key rest) := by
  unfold del
  rw [h]
  simp [hk, delChain_of_contains hc]

theorem del_of_absent (m : ts_hashmap_t) {key : Int} {e : ts_entry_t} {rest : Chain}
    (h : bucket m key = e :: rest) (hk : ¬ e.key = key)
    (hc : containsKey key rest = false) :
    del m key = ({ m with numOps := m.numOps + 1 }, INT_MAX) := by
  unfold del
  rw [h]
  simp [hk, delChain_of_not_contains hc]

/-! ### Invariant preservation -/

theorem Inv_set_chain {m : ts_hashmap_t} {key : Int} (hinv : Inv m) (hk : 0 ≤ key)
    (c : Chain) (sz nops : Int)
    (hkeys : ∀ e ∈ c, 0 ≤ e.key ∧ (bucketIndex e.key m.capacity).toNat = bucketIdxNat m key)
    (hsz : sz + ((bucket m key).length : Int) = m.size + (c.length : Int))
    (hcnt : ∀ k2 : Int, List.countP (fun e => e.key == k2) c + keyCount m k2 ≤
        1 + List.countP (fun e => e.key == k2) (bucket m key)) :
    Inv { m with table := m.table.set (bucketIdxNat m key) c, size := sz, numOps := nops } := by
  obtain ⟨hwf, hsize, hco, hcount⟩ := hinv
  have hlt := bucketIdxNat_lt hwf hk
  have hbe := bucket_eq_getElem hlt
  refine ⟨⟨hwf.1, by simp [hwf.2]⟩, ?_, ?_, ?_⟩
  · show sz = (((m.table.set (bucketIdxNat m key) c).flatten.length : Nat) : Int)
    have hflat := length_flatten_set m.table (bucketIdxNat m key) c hlt
    rw [hbe] at hsz
    unfold totalEntries at hsize
    omega
  · intro i hi e he
    have hi2 : i < m.table.length := by simpa using hi
    by_cases hij : i = bucketIdxNat m key
    · subst hij
      rw [List.getElem_set_self] at he
      exact hkeys e he
    · rw [List.getElem_set_ne (fun hh => hij hh.symm)] at he
      exact hco i hi2 e he
  · intro k2
    show List.countP (fun e => e.key == k2) (m.table.set (bucketIdxNat m key) c).flatten ≤ 1
    have hflat := countP_flatten_set (fun e => e.key == k2) m.table (bucketIdxNat m key) c hlt
    have h1 := hcnt k2
    have h2 := hcount k2
    rw [hbe] at h1
    unfold keyCount at h1 h2
    omega

theorem Inv_get {m : ts_hashmap_t} (key : Int) (hinv : Inv m) : Inv (get m key).1 :=
  hinv

theorem Inv_put {m : ts_hashmap_t} (key value : Int) (hinv : Inv m) (hk : 0 ≤ key) :
    Inv (put m key value).1 := by
  have hwf := hinv.1
  have hco := hinv.2.2.1
  have hcount := hinv.2.2.2
  rcases hb : bucket m key with _ | ⟨e, rest⟩
  · rw [put_of_empty m key value hb]
    apply Inv_set_chain hinv hk
    · intro e2 he2
      rcases List.mem_singleton.mp he2 with rfl
      exact ⟨hk, rfl⟩
    · rw [hb]; simp
    · intro k2
      by_cases hkk : k2 = key
      · subst hkk
        have hz : keyCount m k2 = 0 :=
          keyCount_eq_zero_of_not_in_bucket hco (by rw [hb]; rfl)
        simp [hz, List.countP_cons]
      · have : List.countP (fun e2 => e2.key == k2) [ts_entry_t.mk key value] = 0 := by
          simp [List.countP_cons, hkk]
          intro hcon
          exact absurd hcon (fun hh => hkk hh.symm)
        rw [this]
        have := hcount k2
        omega
  · by_cases hcon : containsKey key (bucket m key) = true
    · rw [put_of_contains m value hcon]
      apply Inv_set_chain hinv hk
      · intro e2 he2
        rcases mem_replaceFirst he2 with ⟨f, hf, hfe⟩
        have hlt := bucketIdxNat_lt hwf hk
        have := hco (bucketIdxNat m key) hlt f (by rw [← bucket_eq_getElem hlt]; exact hf)
        rw [hfe]
        exact this
      · rw [length_replaceFirst]
      · intro k2
        rw [countP_replaceFirst (fun x => x == k2) key value (bucket m key)]
        have := hcount k2
        omega
    · have hcon2 : containsKey key (bucket m key) = false := by
        cases hcc : containsKey key (bucket m key)
        · rfl
        · exact absurd hcc hcon
      rw [put_of_append m value (by rw [hb]; simp) hcon2]
      apply Inv_set_chain hinv hk
      · intro e2 he2
        rcases List.mem_append.mp he2 with h2 | h2
        · have hlt := bucketIdxNat_lt hwf hk
          exact hco (bucketIdxNat m key) hlt e2 (by rw [← bucket_eq_getElem hlt]; exact h2)
        · rcases List.mem_singleton.mp h2 with rfl
          exact ⟨hk, rfl⟩
      · simp; omega
      · intro k2
        rw [List.countP_append]
        by_cases hkk : k2 = key
        · subst hkk
          have hz : keyCount m k2 = 0 :=
            keyCount_eq_zero_of_not_in_bucket hco hcon2
          have : List.countP (fun e2 => e2.key == k2) [ts_entry_t.mk k2 value] ≤ 1 := by
            simp [List.countP_cons]
          omega
        · have hz : List.countP (fun e2 => e2.key == k2) [ts_entry_t.mk key value] = 0 := by
            simp [List.countP_cons]
            intro hcc
            exact absurd hcc (fun hh => hkk hh.symm)
          rw [hz]
          have := hcount k2
          omega

theorem Inv_del {m : ts_hashmap_t} (key : Int) (hinv : Inv m) (hk : 0 ≤ key) :
    Inv (del m key).1 := by
  have hwf := hinv.1
  have hco := hinv.2.2.1
  have hcount := hinv.2.2.2
  rcases hb : bucket m key with _ | ⟨e, rest⟩
  · rw [del_of_empty m key hb]
    exact hinv
  · have hlt := bucketIdxNat_lt hwf hk
    have hmem : ∀ f ∈ bucket m key, 0 ≤ f.key ∧
        (bucketIndex f.key m.capacity).toNat = bucketIdxNat m key := by
      intro f hf
      exact hco (bucketIdxNat m key) hlt f (by rw [← bucket_eq_getElem hlt]; exact hf)
    by_cases hke : e.key = key
    · rw [del_of_head m hb hke]
      apply Inv_set_chain hinv hk
      · intro e2 he2
        exact hmem e2 (by rw [hb]; exact List.mem_cons_of_mem e he2)
      · rw [hb]; simp only [List.length_cons]; push_cast; omega
      · intro k2
        have hsub : List.countP (fun f => f.key == k2) rest ≤
            List.countP (fun f => f.key == k2) (bucket m key) := by
          rw [hb]
          exact List.Sublist.countP_le _ (List.sublist_cons_self e rest)
        have := hcount k2
        omega
    · by_cases hcon : containsKey key rest = true
      · rw [del_of_mid m hb hke hcon]
        apply Inv_set_chain hinv hk
        · intro e2 he2
          rcases List.mem_cons.mp he2 with h2 | h2
          · rw [h2]
            exact hmem e (by rw [hb]; exact List.mem_cons_self e rest)
          · have : e2 ∈ rest := (removeFirst_sublist key rest).subset h2
            exact hmem e2 (by rw [hb]; exact List.mem_cons_of_mem e this)
        · rw [hb]
          have hlen := length_removeFirst_of_contains hcon
          simp only [List.length_cons]
          push_cast
          omega
        · intro k2
          have hsub : List.countP (fun f => f.key == k2) (e :: removeFirst key rest) ≤
              List.countP (fun f => f.key == k2) (bucket m key) := by
            rw [hb]
            exact List.Sublist.countP_le _ ((removeFirst_sublist key rest).cons₂ e)
          have := hcount k2
          omega
      · have hcon2 : containsKey key rest = false := by
          cases hcc : containsKey key rest
          · rfl
          · exact absurd hcc hcon
        rw [del_of_absent m hb hke hcon2]
        exact hinv

theorem Inv_initmap {cap : Int} (h : 0 < cap) : Inv (initmap cap) := by
  have hflat : (List.replicate cap.toNat ([] : Chain)).flatten = [] := by
    induction cap.toNat with
    | zero => rfl
    | succ n ih => simp [List.replicate_succ, ih]
  refine ⟨⟨h, by simp [initmap]⟩, ?_, ?_, ?_⟩
  · show (0 : Int) = ((List.replicate cap.toNat ([] : Chain)).flatten.length : Int)
    rw [hflat]
    rfl
  · intro i hi e he
    have hme : (initmap cap).table[i] = ([] : Chain) := List.getElem_replicate _ _
    rw [hme] at he
    simp at he
  · intro k
    show List.countP _ (List.replicate cap.toNat ([] : Chain)).flatten ≤ 1
    rw [hflat]
    simp

theorem Inv_runOp {m : ts_hashmap_t} {op : Op} (hinv : Inv m) (hop : 0 ≤ op.opKey) :
    Inv (runOp m op) := by
  cases op with
  | put k v => exact Inv_put k v hinv hop
  | get k => exact Inv_get k hinv
  | del k => exact Inv_del k hinv hop

theorem Inv_runOps {ops : List Op} : ∀ {m : ts_hashmap_t}, Inv m →
    (∀ op ∈ ops, 0 ≤ op.opKey) → Inv (runOps m ops) := by
  induction ops with
  | nil => intro m hinv _; exact hinv
  | cons op ops ih =>
    intro m hinv hops
    have h1 : 0 ≤ op.opKey := hops op (List.mem_cons_self op ops)
    have h2 : ∀ op2 ∈ ops, 0 ≤ op2.opKey := fun op2 h => hops op2 (List.mem_cons_of_mem op h)
    exact ih (Inv_runOp hinv h1) h2

theorem Reachable.inv {m : ts_hashmap_t} (h : Reachable m) : Inv m := by
  rcases h with ⟨cap, ops, hcap, hops, rfl⟩
  exact Inv_runOps (Inv_initmap hcap) hops

/-! ### Frame lemmas: well-formedness and lookups under other operations -/

theorem bool_eq_false {b : Bool} (h : ¬ b = true) : b = false := by
  cases b
  · rfl
  · exact absurd rfl h

theorem put_fields (m : ts_hashmap_t) (key value : Int) :
    (put m key value).1.capacity = m.capacity ∧
    (put m key value).1.table.length = m.table.length := by
  unfold put
  by_cases h : (bucket m key).isEmpty = true
  · rw [if_pos h]; exact ⟨rfl, by simp⟩
  · rw [if_neg h]; exact ⟨rfl, by simp⟩

theorem del_fields (m : ts_hashmap_t) (key : Int) :
    (del m key).1.capacity = m.capacity ∧
    (del m key).1.table.length = m.table.length := by
  rcases hb : bucket m key with _ | ⟨e, rest⟩
  · rw [del_of_empty m key hb]; exact ⟨rfl, rfl⟩
  · by_cases hke : e.key = key
    · rw [del_of_head m hb hke]; exact ⟨rfl, by simp⟩
    · by_cases hcon : containsKey key rest = true
      · rw [del_of_mid m hb hke hcon]; exact ⟨rfl, by simp⟩
      · rw [del_of_absent m hb hke (bool_eq_false hcon)]; exact ⟨rfl, rfl⟩

theorem WF_runOp {m : ts_hashmap_t} (op : Op) (hwf : WF m) : WF (runOp m op) := by
  cases op with
  | put k v =>
    show WF (put m k v).1
    refine ⟨?_, ?_⟩
    · rw [(put_fields m k v).1]; exact hwf.1
    · rw [(put_fields m k v).2, (put_fields m k v).1]; exact hwf.2
  | get k => exact hwf
  | del k =>
    show WF (del m k).1
    refine ⟨?_, ?_⟩
    · rw [(del_fields m k).1]; exact hwf.1
    · rw [(del_fields m k).2, (del_fields m k).1]; exact hwf.2

theorem bucket_eq_of_idx_eq (m : ts_hashmap_t) {k1 k2 : Int}
    (h : bucketIdxNat m k1 = bucketIdxNat m k2) : bucket m k1 = bucket m k2 := by
  unfold bucket
  rw [h]

theorem get_put_self {m : ts_hashmap_t} (key value : Int) (hwf : WF m)
    (hk : 0 ≤ key) : (get (put m key value).1 key).2 = value := by
  have hlt := bucketIdxNat_lt hwf hk
  rcases hb : bucket m key with _ | ⟨e, rest⟩
  · rw [put_of_empty m key value hb]
    show getChain key (bucket _ key) = value
    rw [bucket_set m _ _ _ _ key hlt, if_pos rfl]
    simp [getChain]
  · by_cases hcon : containsKey key (bucket m key) = true
    · rw [put_of_contains m value hcon]
      show getChain key (bucket _ key) = value
      rw [bucket_set m _ _ _ _ key hlt, if_pos rfl]
      exact getChain_replaceFirst_self value hcon
    · rw [put_of_append m value (by rw [hb]; simp) (bool_eq_false hcon)]
      show getChain key (bucket _ key) = value
      rw [bucket_set m _ _ _ _ key hlt, if_pos rfl]
      exact getChain_append_self value (bool_eq_false hcon)

theorem get_del_self {m : ts_hashmap_t} (key : Int) (hinv : Inv m) (hk : 0 ≤ key) :
    (get (del m key).1 key).2 = INT_MAX := by
  have hwf := hinv.1
  have hcount := hinv.2.2.2
  have hlt := bucketIdxNat_lt hwf hk
  have hble := countP_bucket_le_keyCount hwf hk
  have hb1 : List.countP (fun e => e.key == key) (bucket m key) ≤ 1 :=
    le_trans hble (hcount key)
  rcases hb : bucket m key with _ | ⟨e, rest⟩
  · rw [del_of_empty m key hb]
    show getChain key (bucket m key) = INT_MAX
    rw [hb]
    rfl
  · by_cases hke : e.key = key
    · rw [del_of_head m hb hke]
      show getChain key (bucket _ key) = INT_MAX
      rw [bucket_set m _ _ _ _ key hlt, if_pos rfl]
      have hbeq : (e.key == key) = true := beq_iff_eq.mpr hke
      rw [hb, List.countP_cons, hbeq, if_pos rfl] at hb1
      have hz : List.countP (fun f => f.key == key) rest = 0 := by omega
      exact getChain_of_not_contains ((countP_key_eq_zero_iff key rest).mp hz)
    · by_cases hcon : containsKey key rest = true
      · rw [del_of_mid m hb hke hcon]
        show getChain key (bucket _ key) = INT_MAX
        rw [bucket_set m _ _ _ _ key hlt, if_pos rfl]
        have hrest : List.countP (fun f => f.key == key) rest ≤ 1 := by
          rw [hb, List.countP_cons] at hb1
          omega
        have hrm := countP_removeFirst_self hcon
        have hz : List.countP (fun f => f.key == key) (removeFirst key rest) = 0 := by
          omega
        have hnc := (countP_key_eq_zero_iff key (removeFirst key rest)).mp hz
        simp only [getChain, if_neg hke]
        exact getChain_of_not_contains hnc
      · rw [del_of_absent m hb hke (bool_eq_false hcon)]
        show getChain key (bucket m key) = INT_MAX
        rw [hb]
        apply getChain_of_not_contains
        simp [containsKey, hke, bool_eq_false hcon]

theorem put_ret_existing (m : ts_hashmap_t) (key v2 : Int)
    (hcon : containsKey key (bucket m key) = true) :
    (put m key v2).2 = (get m key).2 := by
  rw [put_of_contains m v2 hcon]
  rfl

theorem get_stable_runOp {m : ts_hashmap_t} {key : Int} (op : Op) (hwf : WF m)
    (hop : 0 ≤ op.opKey) (hp : preservesKey key op = true) :
    (get (runOp m op) key).2 = (get m key).2 := by
  cases op with
  | get k2 => rfl
  | put k2 v2 =>
    have hne : k2 ≠ key := by simpa [preservesKey] using hp
    have hlt2 : bucketIdxNat m k2 < m.table.length := bucketIdxNat_lt hwf hop
    show getChain key (bucket (put m k2 v2).1 key) = getChain key (bucket m key)
    rcases hb : bucket m k2 with _ | ⟨e, rest⟩
    · rw [put_of_empty m k2 v2 hb, bucket_set m _ _ _ _ key hlt2]
      by_cases hij : bucketIdxNat m key = bucketIdxNat m k2
      · rw [if_pos hij, bucket_eq_of_idx_eq m hij, hb]
        have hkk : ¬ (ts_entry_t.mk k2 v2).key = key := fun h => hne h
        simp [getChain, hkk]
      · rw [if_neg hij]
    · by_cases hcon : containsKey k2 (bucket m k2) = true
      · rw [put_of_contains m v2 hcon, bucket_set m _ _ _ _ key hlt2]
        by_cases hij : bucketIdxNat m key = bucketIdxNat m k2
        · rw [if_pos hij, bucket_eq_of_idx_eq m hij]
          exact getChain_replaceFirst_ne v2 _ (fun h => hne h.symm)
        · rw [if_neg hij]
      · rw [put_of_append m v2 (by rw [hb]; simp) (bool_eq_false hcon),
            bucket_set m _ _ _ _ key hlt2]
        by_cases hij : bucketIdxNat m key = bucketIdxNat m k2
        · rw [if_pos hij, bucket_eq_of_idx_eq m hij]
          exact getChain_append_ne _ hne
        · rw [if_neg hij]
  | del k2 =>
    have hne : k2 ≠ key := by simpa [preservesKey] using hp
    have hlt2 : bucketIdxNat m k2 < m.table.length := bucketIdxNat_lt hwf hop
    show getChain key (bucket (del m k2).1 key) = getChain key (bucket m key)
    rcases hb : bucket m k2 with _ | ⟨e, rest⟩
    · rw [del_of_empty m k2 hb]
      rfl
    · by_cases hke : e.key = k2
      · rw [del_of_head m hb hke, bucket_set m _ _ _ _ key hlt2]
        by_cases hij : bucketIdxNat m key = bucketIdxNat m k2
        · rw [if_pos hij, bucket_eq_of_idx_eq m hij, hb]
          have hek : ¬ e.key = key := by rw [hke]; exact hne
          simp [getChain, hek]
        · rw [if_neg hij]
      · by_cases hcon : containsKey k2 rest = true
        · rw [del_of_mid m hb hke hcon, bucket_set m _ _ _ _ key hlt2]
          by_cases hij : bucketIdxNat m key = bucketIdxNat m k2
          · rw [if_pos hij, bucket_eq_of_idx_eq m hij, hb]
            by_cases hek : e.key = key
            · simp [getChain, hek]
            · simp only [getChain, if_neg hek]
              exact getChain_removeFirst_ne rest (fun h => hne h.symm)
          · rw [if_neg hij]
        · rw [del_of_absent m hb hke (bool_eq_false hcon)]
          rfl

theorem get_stable_runOps {key : Int} (ops : List Op) :
    ∀ {m : ts_hashmap_t}, WF m →
    (∀ op ∈ ops, 0 ≤ op.opKey ∧ preservesKey key op = true) →
    (get (runOps m ops) key).2 = (get m key).2 := by
  induction ops with
  | nil => intro m _ _; rfl
  | cons op ops ih =>
    intro m hwf hops
    have h1 := hops op (List.mem_cons_self op ops)
    have h2 : ∀ op2 ∈ ops, 0 ≤ op2.opKey ∧ preservesKey key op2 = true :=
      fun op2 h => hops op2 (List.mem_cons_of_mem op h)
    show (get (runOps (runOp m op) ops) key).2 = (get m key).2
    rw [ih (WF_runOp op hwf) h2]
    exact get_stable_runOp op hwf h1.1 h1.2

/-! ### Lock-event lemmas -/

theorem getLoopEvents_eq (key : Int) (index : Nat) (c : Chain) :
    getLoopEvents key index c = [.release index] := by
  induction c with
  | nil => rfl
  | cons e rest ih =>
    by_cases hk : e.key = key
    · simp [getLoopEvents, hk]
    · simp [getLoopEvents, hk, ih]

theorem putLoopEvents_eq (key : Int) (index : Nat) (c : Chain) :
    putLoopEvents key index c = [.release index] := by
  induction c with
  | nil => rfl
  | cons e rest ih =>
    by_cases hk : e.key = key
    · simp [putLoopEvents, hk]
    · by_cases hr : rest.isEmpty = true
      · simp [putLoopEvents, hk, hr]
      · simp [putLoopEvents, hk, hr, ih]

theorem getEvents_eq (m : ts_hashmap_t) (key : Int) :
    getEvents m key =
      [.acquire (bucketIdxNat m key), .release (bucketIdxNat m key)] := by
  unfold getEvents
  rw [getLoopEvents_eq]

theorem putEvents_eq (m : ts_hashmap_t) (key value : Int) :
    putEvents m key value =
      [.acquire (bucketIdxNat m key), .release (bucketIdxNat m key)] := by
  unfold putEvents
  by_cases h : (bucket m key).isEmpty = true
  · rw [if_pos h]
  · rw [if_neg h, putLoopEvents_eq]

theorem delEvents_eq (m : ts_hashmap_t) (key : Int) :
    delEvents m key =
      [.acquire (bucketIdxNat m key), .release (bucketIdxNat m key)] := by
  unfold delEvents
  rcases bucket m key with _ | ⟨e, rest⟩
  · rfl
  · by_cases hk : e.key = key
    · simp [hk]
    · rcases hd : (delChain key rest).2 with _ | v
      · simp [hk, hd]
      · simp [hk, hd]

/-! ### Distinct keys and size deltas -/

theorem count_allKeys (m : ts_hashmap_t) (k : Int) :
    (allKeys m).count k = keyCount m k := by
  unfold allKeys keyCount
  rw [List.count_eq_countP, List.countP_map]
  rfl

theorem allKeys_nodup {m : ts_hashmap_t} (hcnt : ∀ k : Int, keyCount m k ≤ 1) :
    (allKeys m).Nodup := by
  rw [List.nodup_iff_count_le_one]
  intro a
  rw [count_allKeys]
  exact hcnt a

theorem totalEntries_eq_numDistinct {m : ts_hashmap_t}
    (hcnt : ∀ k : Int, keyCount m k ≤ 1) :
    totalEntries m = numDistinctKeys m := by
  unfold numDistinctKeys
  rw [List.dedup_eq_self.mpr (allKeys_nodup hcnt)]
  unfold allKeys totalEntries
  rw [List.length_map]

theorem put_size_new (m : ts_hashmap_t) (key value : Int)
    (h : containsKey key (bucket m key) = false) :
    (put m key value).1.size = m.size + 1 := by
  rcases hb : bucket m key with _ | ⟨e, rest⟩
  · rw [put_of_empty m key value hb]
  · rw [put_of_append m value (by rw [hb]; simp) h]

theorem put_size_old (m : ts_hashmap_t) (key value : Int)
    (h : containsKey key (bucket m key) = true) :
    (put m key value).1.size = m.size := by
  rw [put_of_contains m value h]

theorem del_size_present (m : ts_hashmap_t) (key : Int)
    (h : containsKey key (bucket m key) = true) :
    (del m key).1.size = m.size - 1 := by
  rcases hb : bucket m key with _ | ⟨e, rest⟩
  · rw [hb] at h; simp [containsKey] at h
  · by_cases hke : e.key = key
    · rw [del_of_head m hb hke]
    · have hcr : containsKey key rest = true := by
        rw [hb] at h
        simpa [containsKey, hke] using h
      rw [del_of_mid m hb hke hcr]

theorem del_size_absent (m : ts_hashmap_t) (key : Int)
    (h : containsKey key (bucket m key) = false) :
    (del m key).1.size = m.size := by
  rcases hb : bucket m key with _ | ⟨e, rest⟩
  · rw [del_of_empty m key hb]
  · rw [hb] at h
    simp only [containsKey, Bool.or_eq_false_iff, beq_eq_false_iff_ne, ne_eq] at h
    rw [del_of_absent m hb h.1 h.2]

theorem contains_put_self {m : ts_hashmap_t} (key value : Int) (hwf : WF m)
    (hk : 0 ≤ key) :
    containsKey key (bucket (put m key value).1 key) = true := by
  have hlt := bucketIdxNat_lt hwf hk
  rcases hb : bucket m key with _ | ⟨e, rest⟩
  · rw [put_of_empty m key value hb, bucket_set m _ _ _ _ key hlt, if_pos rfl]
    simp [containsKey]
  · by_cases hcon : containsKey key (bucket m key) = true
    · rw [put_of_contains m value hcon, bucket_set m _ _ _ _ key hlt, if_pos rfl,
        containsKey_replaceFirst]
      exact hcon
    · rw [put_of_append m value (by rw [hb]; simp) (bool_eq_false hcon),
        bucket_set m _ _ _ _ key hlt, if_pos rfl, containsKey_append]
      simp [containsKey]

/-! ### Claim theorems -/

/-- C1: each `put` call has exactly one of three outcomes — sole head
insertion into an empty bucket with size incremented and `INT_MAX`
returned, in-place value replacement with chain order and size unchanged
and the prior value returned, or tail append with size incremented and
`INT_MAX` returned — and the residual `return -1` path is never taken. -/
theorem put_trichotomy (m : ts_hashmap_t) (key value : Int)
    (_hwf : WF m) (_hk : 0 ≤ key) : putTrichotomyAt m key value := by
  refine ⟨?_, ?_, ?_, ?_⟩
  · intro hb
    refine ⟨?_, ?_, ?_, ?_⟩
    · unfold putOutcome
      rw [hb]
      rfl
    · rw [put_of_empty m key value hb]
    · rw [put_of_empty m key value hb]
    · rw [put_of_empty m key value hb]
  · intro hcon
    have hne : (bucket m key).isEmpty = false := by
      cases hbb : bucket m key with
      | nil => rw [hbb] at hcon; simp [containsKey] at hcon
      | cons e rest => rfl
    refine ⟨?_, ?_, keys_replaceFirst key value (bucket m key), ?_, ?_⟩
    · unfold putOutcome
      rw [hne, putChain_of_contains value hcon]
      simp
    · rw [put_of_contains m value hcon]
    · rw [put_of_contains m value hcon]
    · rw [put_of_contains m value hcon]
  · intro hne hcon
    have hne2 : (bucket m key).isEmpty = false := by
      cases hbb : bucket m key with
      | nil => exact absurd hbb hne
      | cons e rest => rfl
    refine ⟨?_, ?_, ?_, ?_⟩
    · unfold putOutcome
      rw [hne2, putChain_of_not_contains value hne hcon]
      simp
    · rw [put_of_append m value hne hcon]
    · rw [put_of_append m value hne hcon]
    · rw [put_of_append m value hne hcon]
  · unfold putOutcome
    by_cases hb : (bucket m key).isEmpty = true
    · rw [if_pos hb]
      simp
    · rw [if_neg hb]
      have hne : bucket m key ≠ [] := by
        cases hbb : bucket m key with
        | nil => rw [hbb] at hb; exact absurd rfl hb
        | cons e rest => simp
      by_cases hcon : containsKey key (bucket m key) = true
      · rw [putChain_of_contains value hcon]
        simp
      · rw [putChain_of_not_contains value hne (bool_eq_false hcon)]
        simp

/-- C1 witness: the theorem applied to the freshly created map of
capacity 4 at key 1, value 10. -/
theorem put_trichotomy_witness :
    WF (initmap 4) ∧ 0 ≤ (1 : Int) ∧ putTrichotomyAt (initmap 4) 1 10 :=
  ⟨by decide, by decide, put_trichotomy (initmap 4) 1 10 (by decide) (by decide)⟩

/-- C2: each `del` call either finds no match and returns `INT_MAX`
leaving chain and size unchanged, unlinks a matching head promoting its
successor, or unlinks a matching mid-chain or tail entry by relinking its
predecessor to its successor; in the latter two cases size is decremented
and the removed value returned. -/
theorem del_behavior (m : ts_hashmap_t) (key : Int)
    (_hwf : WF m) (_hk : 0 ≤ key) : delCasesAt m key := by
  refine ⟨?_, ?_, ?_⟩
  · intro hcon
    rcases hb : bucket m key with _ | ⟨e, rest⟩
    · rw [del_of_empty m key hb]
      exact ⟨rfl, rfl, rfl⟩
    · rw [hb] at hcon
      simp only [containsKey, Bool.or_eq_false_iff, beq_eq_false_iff_ne, ne_eq] at hcon
      rw [del_of_absent m hb hcon.1 hcon.2]
      exact ⟨rfl, rfl, rfl⟩
  · intro e rest hb hke
    rw [del_of_head m hb hke]
    exact ⟨rfl, rfl, rfl⟩
  · intro e rest hb hke hcon
    rw [del_of_mid m hb hke hcon]
    exact ⟨rfl, rfl, rfl⟩

/-- C2 witness: the theorem applied to the freshly created map of
capacity 4 at key 2. -/
theorem del_behavior_witness :
    WF (initmap 4) ∧ 0 ≤ (2 : Int) ∧ delCasesAt (initmap 4) 2 :=
  ⟨by decide, by decide, del_behavior (initmap 4) 2 (by decide) (by decide)⟩

/-- C3: `get` returns the value of the entry of the target bucket whose
key equals the argument when one exists, and otherwise the `NOT_FOUND`
sentinel, which is `INT_MAX`, the largest value of the 32-bit signed
integer domain. -/
theorem get_spec (m : ts_hashmap_t) (key : Int)
    (hr : Reachable m) (hk : 0 ≤ key) : getSpecAt m key := by
  have hinv := hr.inv
  refine ⟨?_, ?_, by unfold INT_MAX; norm_num⟩
  · intro e he hek
    show getChain key (bucket m key) = e.value
    exact getChain_eq_of_mem_of_count_le_one
      (le_trans (countP_bucket_le_keyCount hinv.1 hk) (hinv.2.2.2 key)) he hek
  · intro hcon
    show getChain key (bucket m key) = INT_MAX
    exact getChain_of_not_contains hcon

/-- C3 witness: the theorem applied to the reachable map obtained by one
put of key 1 into a map of capacity 4, at key 1. -/
theorem get_spec_witness :
    Reachable (runOps (initmap 4) [Op.put 1 10]) ∧ 0 ≤ (1 : Int) ∧
      getSpecAt (runOps (initmap 4) [Op.put 1 10]) 1 :=
  ⟨⟨4, [Op.put 1 10], by decide, by decide, rfl⟩, by decide,
    get_spec (runOps (initmap 4) [Op.put 1 10]) 1
      ⟨4, [Op.put 1 10], by decide, by decide, rfl⟩ (by decide)⟩

/-- C4: in every reachable state the size counter equals the number of
entries reachable across all bucket chains, which equals the number of
distinct keys present, and the mutating operations change it exactly as
specified per call. -/
theorem size_invariant (m : ts_hashmap_t) (key value : Int)
    (hr : Reachable m) (_hk : 0 ≤ key) :
    m.size = (totalEntries m : Int) ∧ totalEntries m = numDistinctKeys m ∧
      sizeDeltasAt m key value := by
  have hinv := hr.inv
  exact ⟨hinv.2.1, totalEntries_eq_numDistinct hinv.2.2.2,
    put_size_new m key value, put_size_old m key value,
    del_size_present m key, del_size_absent m key⟩

/-- C4 witness: the theorem applied to the reachable map obtained by two
puts and one delete in a map of capacity 4, at key 1, value 7. -/
theorem size_invariant_witness :
    Reachable (runOps (initmap 4) [Op.put 1 10, Op.put 5 20, Op.del 5]) ∧
      0 ≤ (1 : Int) ∧
      ((runOps (initmap 4) [Op.put 1 10, Op.put 5 20, Op.del 5]).size =
          (totalEntries (runOps (initmap 4) [Op.put 1 10, Op.put 5 20, Op.del 5]) : Int) ∧
        totalEntries (runOps (initmap 4) [Op.put 1 10, Op.put 5 20, Op.del 5]) =
          numDistinctKeys (runOps (initmap 4) [Op.put 1 10, Op.put 5 20, Op.del 5]) ∧
        sizeDeltasAt (runOps (initmap 4) [Op.put 1 10, Op.put 5 20, Op.del 5]) 1 7) :=
  ⟨⟨4, [Op.put 1 10, Op.put 5 20, Op.del 5], by decide, by decide, rfl⟩, by decide,
    size_invariant (runOps (initmap 4) [Op.put 1 10, Op.put 5 20, Op.del 5]) 1 7
      ⟨4, [Op.put 1 10, Op.put 5 20, Op.del 5], by decide, by decide, rfl⟩ (by decide)⟩

/-- C5: in every reachable state at most one entry with any given key
exists across all bucket chains. -/
theorem at_most_one_entry_per_key (m : ts_hashmap_t) (hr : Reachable m) :
    ∀ k : Int, keyCount m k ≤ 1 :=
  hr.inv.2.2.2

/-- C5 witness: the theorem applied to the reachable map obtained by
putting key 1 twice into a map of capacity 4, checked at key 1. -/
theorem at_most_one_entry_per_key_witness :
    Reachable (runOps (initmap 4) [Op.put 1 10, Op.put 1 20]) ∧
      keyCount (runOps (initmap 4) [Op.put 1 10, Op.put 1 20]) 1 ≤ 1 :=
  ⟨⟨4, [Op.put 1 10, Op.put 1 20], by decide, by decide, rfl⟩,
    at_most_one_entry_per_key (runOps (initmap 4) [Op.put 1 10, Op.put 1 20])
      ⟨4, [Op.put 1 10, Op.put 1 20], by decide, by decide, rfl⟩ 1⟩

/-- C6: single-thread algebraic laws — after `put m key v`, `get` on that
key returns `v` through any sequence of operations that neither overwrites
nor deletes the key; after `del`, `get` returns `NOT_FOUND`; and `put` on
a present key returns the current value. -/
theorem single_thread_algebra (m : ts_hashmap_t) (key v : Int)
    (hr : Reachable m) (hk : 0 ≤ key) : algebraAt m key v := by
  have hinv := hr.inv
  refine ⟨?_, get_del_self key hinv hk,
    fun v2 hcon => put_ret_existing m key v2 hcon⟩
  intro ops hops
  have hwf1 : WF (put m key v).1 := WF_runOp (.put key v) hinv.1
  rw [get_stable_runOps ops hwf1 hops]
  exact get_put_self key v hinv.1 hk

/-- C6 witness: the theorem applied to the freshly created map of
capacity 4 at key 1, value 10. -/
theorem single_thread_algebra_witness :
    Reachable (initmap 4) ∧ 0 ≤ (1 : Int) ∧ algebraAt (initmap 4) 1 10 :=
  ⟨⟨4, [], by decide, by decide, rfl⟩, by decide,
    single_thread_algebra (initmap 4) 1 10
      ⟨4, [], by decide, by decide, rfl⟩ (by decide)⟩

/-- C7: for positive capacity and non-negative key the bucket index
`key % capacity` lies in `[0, capacity)` and stays inside the table, so
all table and lock accesses are in bounds — while a negative key can
produce a negative index under C's truncated `%`, witnessed by
`(-3) % 4 = -3`. -/
theorem bucket_index_bounds (m : ts_hashmap_t) (key : Int)
    (hwf : WF m) (hk : 0 ≤ key) :
    0 ≤ bucketIndex key m.capacity ∧ bucketIndex key m.capacity < m.capacity ∧
      bucketIdxNat m key < m.table.length ∧ bucketIndex (-3) 4 < 0 :=
  ⟨Int.tmod_nonneg m.capacity hk, Int.tmod_lt_of_pos key hwf.1,
    bucketIdxNat_lt hwf hk, by decide⟩

/-- C7 witness: the theorem applied to the freshly created map of
capacity 4 at key 5. -/
theorem bucket_index_bounds_witness :
    WF (initmap 4) ∧ 0 ≤ (5 : Int) ∧
      (0 ≤ bucketIndex 5 (initmap 4).capacity ∧
        bucketIndex 5 (initmap 4).capacity < (initmap 4).capacity ∧
        bucketIdxNat (initmap 4) 5 < (initmap 4).table.length ∧
        bucketIndex (-3) 4 < 0) :=
  ⟨by decide, by decide, bucket_index_bounds (initmap 4) 5 (by decide) (by decide)⟩

/-- C8: every `get`, `put` and `del` call acquires exactly the one lock
of the key's bucket and releases it before returning on every control
path, and each trace obeys the single-lock discipline (never two locks
held), so no deadlock is possible. -/
theorem single_lock_discipline (m : ts_hashmap_t) (key value : Int) :
    getEvents m key =
      [.acquire (bucketIdxNat m key), .release (bucketIdxNat m key)] ∧
    putEvents m key value =
      [.acquire (bucketIdxNat m key), .release (bucketIdxNat m key)] ∧
    delEvents m key =
      [.acquire (bucketIdxNat m key), .release (bucketIdxNat m key)] ∧
    singleLockProtocol none (getEvents m key) = true ∧
    singleLockProtocol none (putEvents m key value) = true ∧
    singleLockProtocol none (delEvents m key) = true := by
  have h1 := getEvents_eq m key
  have h2 := putEvents_eq m key value
  have h3 := delEvents_eq m key
  refine ⟨h1, h2, h3, ?_, ?_, ?_⟩
  · rw [h1]
    simp [singleLockProtocol]
  · rw [h2]
    simp [singleLockProtocol]
  · rw [h3]
    simp [singleLockProtocol]

/-- C9: `get` is read-only — the bucket chains, the size counter and the
capacity are unchanged, and the only state change is incrementing the
operation counter. -/
theorem get_readonly (m : ts_hashmap_t) (key : Int) :
    (get m key).1.table = m.table ∧ (get m key).1.size = m.size ∧
    (get m key).1.capacity = m.capacity ∧
    (get m key).1.numOps = m.numOps + 1 :=
  ⟨rfl, rfl, rfl, rfl⟩

/-- C10: `put` accepts the sentinel as a stored value — `put m key
INT_MAX` stores an entry for the key whose stored value is `INT_MAX`, a
subsequent `get` returns `INT_MAX`, and that result is indistinguishable
from the key being absent, since `get` on any absent key also returns
`INT_MAX`. -/
theorem put_sentinel_value (m : ts_hashmap_t) (key : Int)
    (hwf : WF m) (hk : 0 ≤ key) : sentinelAt m key := by
  refine ⟨contains_put_self key INT_MAX hwf hk,
    get_put_self key INT_MAX hwf hk, ?_⟩
  intro m2 k2 hcon
  show getChain k2 (bucket m2 k2) = INT_MAX
  exact getChain_of_not_contains hcon

/-- C10 witness: the theorem applied to the freshly created map of
capacity 4 at key 7. -/
theorem put_sentinel_value_witness :
    WF (initmap 4) ∧ 0 ≤ (7 : Int) ∧ sentinelAt (initmap 4) 7 :=
  ⟨by decide, by decide, put_sentinel_value (initmap 4) 7 (by decide) (by decide)⟩

end TsHashmap
